import Mathlib

/-!
Verification development for the QuantumComputingReactingFlows repository
(directory 1DPeriodicFourierSeries, scripts 1DPeriodicDiscretizedQuantumTime.py
and 1DPeriodicSpectralNoisyQuantumSingle.py).

The scripts are straight-line numerical programs over real and complex arrays.
We embed them shallowly: numpy arrays become functions from natural-number
indices to real or complex values, numpy square matrices become Mathlib
matrices over Fin n, the scipy forward-normalized FFT becomes an explicit
discrete Fourier sum, and scipy matrix exponentials become NormedSpace.exp
over complex matrices.  Floating point arithmetic is idealized as exact real
arithmetic throughout.
-/

namespace QCRF

open Finset

open scoped Matrix

noncomputable section

/-! ## Shared initialization (both scripts)

Mirrors the initialization blocks: the spatial grid from np.linspace,
the harmonic initial field, and its Euclidean normalization. -/

/-- Spatial grid, np.linspace(-L/2, L/2, num=n, endpoint=False):
point p is -L/2 + p * (L / n). -/
def grid (L : ℝ) (n : ℕ) (p : ℕ) : ℝ := -L / 2 + p * (L / n)

/-- Euclidean norm of the length n real array u:
u_init_norm = np.sqrt(np.sum(np.square(u_init))). -/
def fieldNorm (n : ℕ) (u : ℕ → ℝ) : ℝ := Real.sqrt (∑ p ∈ range n, u p ^ 2)

/-- Normalized field, u0 = u_init / u_init_norm (entrywise). -/
def normalize (n : ℕ) (u : ℕ → ℝ) (p : ℕ) : ℝ := u p / fieldNorm n u

/-! ## Auxiliary axis and profile (AuxiliaryTransform)

Mirrors the auxiliary-variable blocks of both scripts: the extended axis y
from np.linspace, the floor value bottom, and the piecewise profile v_init. -/

/-- Floor value, bottom = np.exp(-np.pi*(wy/2-shift)). -/
def bottomVal (wy shift : ℝ) : ℝ := Real.exp (-Real.pi * (wy / 2 - shift))

/-- Value assigned by the v_init loop body at an axis point vy.  The source
computes tmp = np.exp(alpha*(vy+shift*(1+1/alpha)*np.pi)) and replaces it by
bottom when tmp < bottom. -/
def profileVal (wy shift alpha bzone vy : ℝ) : ℝ :=
  if vy < -Real.pi * (wy / 2 + shift - bzone) ∨ vy > Real.pi * (wy / 2 - shift - bzone) then 0
  else if vy < -Real.pi * shift then
    (if Real.exp (alpha * (vy + shift * (1 + 1 / alpha) * Real.pi)) < bottomVal wy shift then
      bottomVal wy shift
    else Real.exp (alpha * (vy + shift * (1 + 1 / alpha) * Real.pi)))
  else Real.exp (-vy)

/-- Auxiliary axis, y = np.linspace(-pi*(wy/2+shift), pi*(wy/2-shift), num=ny,
endpoint=False): point i is start + i * ((stop - start) / ny). -/
def auxAxis (ny : ℕ) (wy shift : ℝ) (i : ℕ) : ℝ :=
  -Real.pi * (wy / 2 + shift) +
    i * ((Real.pi * (wy / 2 - shift) - -Real.pi * (wy / 2 + shift)) / ny)

/-- Auxiliary profile v_init: the loop applies profileVal to every axis point. -/
def vInit (ny : ℕ) (wy shift alpha bzone : ℝ) (i : ℕ) : ℝ :=
  profileVal wy shift alpha bzone (auxAxis ny wy shift i)

/-! ## Forward transform and frequency grid -/

/-- Integer FFT frequency bin of index i for length n (the numerator of the
numpy fftfreq grid): i for the first half, i - n for the second half. -/
def fftBin (n : ℕ) (i : ℕ) : ℤ := if 2 * i < n then (i : ℤ) else (i : ℤ) - n

/-- Normalized FFT frequency grid, fft.fftfreq(n): bin / n. -/
def fftfreq (n : ℕ) (i : ℕ) : ℝ := (fftBin n i : ℝ) / n

/-- Auxiliary wavenumbers, kv = fft.fftfreq(ny)*ny*2/wy. -/
def kvGrid (ny : ℕ) (wy : ℝ) (i : ℕ) : ℝ := fftfreq ny i * ny * 2 / wy

/-- Forward-normalized discrete Fourier transform,
fv = fft.fft(v, norm=forward): coefficient m is the average
(1/n) * sum_j v_j * exp(-2*pi*I*m*j/n). -/
def dftForward (n : ℕ) (v : ℕ → ℝ) (m : ℕ) : ℂ :=
  (1 / n) * ∑ j ∈ range n, (v j : ℂ) *
    Complex.exp (-2 * Real.pi * Complex.I * m * j / n)

/-! ## Statement of the profile policy as the spec words it (for claim C2) -/

/-- Profile policy as worded by the spec: value 0 outside the closed interval
from -pi*(wy/2+shift-bzone) to pi*(wy/2-shift-bzone); else, below -pi*shift,
the maximum of the exponential ramp and the floor; else exp(-vy). -/
def specProfile (wy shift alpha bzone vy : ℝ) : ℝ :=
  if ¬(-Real.pi * (wy / 2 + shift - bzone) ≤ vy ∧ vy ≤ Real.pi * (wy / 2 - shift - bzone)) then 0
  else if vy < -Real.pi * shift then
    max (Real.exp (alpha * (vy + shift * (1 + 1 / alpha) * Real.pi))) (bottomVal wy shift)
  else Real.exp (-vy)

end

/-! ## Claim C2: the auxiliary profile follows the piecewise rule of the spec -/

/-- C2: for every axis point of the AuxiliaryAxis, the AuxiliaryProfile value
follows the priority-ordered piecewise rule of the spec: 0 outside the closed
window, the floored exponential ramp (a maximum with the floor value) below
-pi*shift, and exp(-vy) otherwise. -/
theorem auxiliary_profile_piecewise_rule (ny : ℕ) (wy shift alpha bzone : ℝ) (i : ℕ) :
    vInit ny wy shift alpha bzone i =
      specProfile wy shift alpha bzone (auxAxis ny wy shift i) := by
  unfold vInit profileVal specProfile
  simp only [not_and_or, not_le, gt_iff_lt]
  split_ifs with h1 h2 h3
  · rfl
  · exact (max_eq_right h3.le).symm
  · exact (max_eq_left (not_lt.mp h3)).symm
  · rfl

/-! ## Claim C7: wavenumbers are the integer FFT bins scaled by 2/wy -/

/-- C7: for every auxiliary grid size ny and width wy, the wavenumber of the
i-th FrequencyComponent, kv i = fftfreq ny i * ny * 2 / wy, equals the signed
integer FFT bin of index i scaled by 2 / wy. -/
theorem wavenumber_bin_scaling (ny : ℕ) (wy : ℝ) (i : Fin ny) :
    kvGrid ny wy i.val = (fftBin ny i.val : ℝ) * 2 / wy := by
  have hn : (ny : ℝ) ≠ 0 := Nat.cast_ne_zero.mpr i.pos.ne'
  unfold kvGrid fftfreq
  rw [div_mul_cancel₀ _ hn]

/-! ## Claim C8: dividing the initial field by its stored norm gives norm one -/

/-- C8: for every nonzero InitialField u over n grid points, the Euclidean norm
of u divided entrywise by the stored InitialFieldNorm is exactly 1. -/
theorem normalized_field_has_unit_norm (n : ℕ) (u : ℕ → ℝ)
    (h : ∃ p < n, u p ≠ 0) : fieldNorm n (normalize n u) = 1 := by
  obtain ⟨p, hp, hup⟩ := h
  have hsum : 0 < ∑ q ∈ range n, u q ^ 2 :=
    Finset.sum_pos' (fun q _ => sq_nonneg _)
      ⟨p, Finset.mem_range.mpr hp, by positivity⟩
  unfold fieldNorm normalize
  simp_rw [div_pow, ← Finset.sum_div]
  unfold fieldNorm
  rw [Real.sq_sqrt hsum.le, div_self hsum.ne', Real.sqrt_one]

/-- Witness for C8 at the concrete one-point field with value 2. -/
theorem normalized_field_has_unit_norm_witness :
    fieldNorm 1 (normalize 1 (fun _ => 2)) = 1 :=
  normalized_field_has_unit_norm 1 (fun _ => 2) ⟨0, by norm_num, by norm_num⟩

/-! ## Finite-difference spatial operator (discretization block)

Mirrors the discretization block of 1DPeriodicDiscretizedQuantumTime.py.
Each matrix is translated as the final value of every cell after the
imperative writes; the wraparound writes AC[0,-1], AC[-1,0] (and the AD
counterparts) happen after the loop, so they take priority in the
if-cascade. -/

noncomputable section

/-- Unscaled convection stencil: superdiagonal 1, subdiagonal -1, then the
wraparound writes AC[0, n-1] = -1 and AC[n-1, 0] = 1. -/
def ACpattern (n : ℕ) : Matrix (Fin n) (Fin n) ℝ := fun i j =>
  if i.val = n - 1 ∧ j.val = 0 then 1
  else if i.val = 0 ∧ j.val = n - 1 then -1
  else if j.val = i.val + 1 then 1
  else if i.val = j.val + 1 then -1
  else 0

/-- Unscaled diffusion stencil: diagonal 2, off-diagonals -1, then the
wraparound writes AD[0, n-1] = -1 and AD[n-1, 0] = -1. -/
def ADpattern (n : ℕ) : Matrix (Fin n) (Fin n) ℝ := fun i j =>
  if i.val = n - 1 ∧ j.val = 0 then -1
  else if i.val = 0 ∧ j.val = n - 1 then -1
  else if j.val = i.val + 1 then -1
  else if i.val = j.val + 1 then -1
  else if i = j then 2
  else 0

/-- Convection matrix, AC = AC * C / (2*dx). -/
def AC (n : ℕ) (C dx : ℝ) : Matrix (Fin n) (Fin n) ℝ := (C / (2 * dx)) • ACpattern n

/-- Diffusion matrix, AD = AD * D / np.square(dx). -/
def AD (n : ℕ) (D dx : ℝ) : Matrix (Fin n) (Fin n) ℝ := (D / dx ^ 2) • ADpattern n

/-- Reaction matrix, AS = -S*np.eye(nx). -/
def AS (n : ℕ) (S : ℝ) : Matrix (Fin n) (Fin n) ℝ := (-S) • (1 : Matrix (Fin n) (Fin n) ℝ)

/-- Assembled finite-difference spatial operator, A = AC + AD + AS. -/
def Afd (n : ℕ) (C D S dx : ℝ) : Matrix (Fin n) (Fin n) ℝ := AC n C dx + AD n D dx + AS n S

/-- Hermitian part, H1 = (A + A.H) / 2.  The source matrix is real, so the
numpy conjugate transpose is the Mathlib conjugate transpose over the reals. -/
def H1 (n : ℕ) (C D S dx : ℝ) : Matrix (Fin n) (Fin n) ℝ :=
  ((1 : ℝ) / 2) • (Afd n C D S dx + (Afd n C D S dx)ᴴ)

/-- Anti-Hermitian part, H2 = (A - A.H) / 2. -/
def H2 (n : ℕ) (C D S dx : ℝ) : Matrix (Fin n) (Fin n) ℝ :=
  ((1 : ℝ) / 2) • (Afd n C D S dx - (Afd n C D S dx)ᴴ)

/-- Complexification of the assembled operator (entrywise real-to-complex). -/
def AfdC (n : ℕ) (C D S dx : ℝ) : Matrix (Fin n) (Fin n) ℂ :=
  (Afd n C D S dx).map Complex.ofReal

/-- Per-frequency generator, M = 1.j*k*H1 - H2 (complex matrix). -/
def Mgen (n : ℕ) (C D S dx k : ℝ) : Matrix (Fin n) (Fin n) ℂ :=
  (Complex.I * k) • (H1 n C D S dx).map Complex.ofReal -
    (H2 n C D S dx).map Complex.ofReal

/-- Evolution operator supplied to the oracle, U = linalg.expm(M*t). -/
def Ufd (n : ℕ) (C D S dx k t : ℝ) : Matrix (Fin n) (Fin n) ℂ :=
  NormedSpace.exp ℂ ((t : ℂ) • Mgen n C D S dx k)

end

/-- Antisymmetry of the convection stencil for at least two grid points. -/
theorem ACpattern_antisymm (n : ℕ) (hn : 2 ≤ n) (i j : Fin n) :
    ACpattern n j i = -ACpattern n i j := by
  have hi := i.isLt
  have hj := j.isLt
  unfold ACpattern
  split_ifs <;> first | omega | norm_num

/-- Symmetry of the diffusion stencil. -/
theorem ADpattern_symm (n : ℕ) (i j : Fin n) :
    ADpattern n j i = ADpattern n i j := by
  have hi := i.isLt
  have hj := j.isLt
  unfold ADpattern
  simp only [Fin.ext_iff]
  split_ifs <;> first | omega | norm_num

/-! ## Claim C6: symmetry structure of the finite-difference operator -/

/-- C6: the convection part is antisymmetric, the diffusion and reaction parts
are symmetric (wraparound entries included), H1 = (A+A.H)/2 is Hermitian,
H2 = (A-A.H)/2 is anti-Hermitian, and H1 + H2 reconstructs A exactly. -/
theorem operator_hermitian_split (n : ℕ) (C D S dx : ℝ) (hn : 2 ≤ n) :
    (AC n C dx)ᵀ = -AC n C dx ∧
    (AD n D dx)ᵀ = AD n D dx ∧
    (AS n S)ᵀ = AS n S ∧
    (H1 n C D S dx)ᴴ = H1 n C D S dx ∧
    (H2 n C D S dx)ᴴ = -H2 n C D S dx ∧
    H1 n C D S dx + H2 n C D S dx = Afd n C D S dx := by
  refine ⟨?_, ?_, ?_, ?_, ?_, ?_⟩
  · ext i j
    simp only [Matrix.transpose_apply, AC, Matrix.smul_apply, Matrix.neg_apply,
      smul_eq_mul]
    rw [ACpattern_antisymm n hn i j]
    ring
  · ext i j
    simp only [Matrix.transpose_apply, AD, Matrix.smul_apply, smul_eq_mul]
    rw [ADpattern_symm n i j]
  · rw [AS, Matrix.transpose_smul, Matrix.transpose_one]
  · ext i j
    simp only [H1, Matrix.conjTranspose_apply, Matrix.smul_apply, Matrix.add_apply,
      star_trivial, smul_eq_mul]
    ring
  · ext i j
    simp only [H2, Matrix.conjTranspose_apply, Matrix.smul_apply, Matrix.sub_apply,
      Matrix.neg_apply, star_trivial, smul_eq_mul]
    ring
  · ext i j
    simp only [H1, H2, Matrix.add_apply, Matrix.sub_apply, Matrix.smul_apply,
      Matrix.conjTranspose_apply, star_trivial, smul_eq_mul]
    ring

/-- Witness for C6 at n = 2, C = 1, D = 1, S = 1, dx = 1. -/
theorem operator_hermitian_split_witness :
    (AC 2 1 1)ᵀ = -AC 2 1 1 ∧
    (AD 2 1 1)ᵀ = AD 2 1 1 ∧
    (AS 2 1)ᵀ = AS 2 1 ∧
    (H1 2 1 1 1 1)ᴴ = H1 2 1 1 1 1 ∧
    (H2 2 1 1 1 1)ᴴ = -H2 2 1 1 1 1 ∧
    H1 2 1 1 1 1 + H2 2 1 1 1 1 = Afd 2 1 1 1 1 :=
  operator_hermitian_split 2 1 1 1 1 (by norm_num)

/-! ## Claim C1: assembly of the finite-difference spatial operator

The claim states A = Conv + Diff + S*I.  The source sets AS = -S*np.eye(nx),
so the reaction part of the assembled operator is -S*I, not S*I; the claim
fails at any coefficient set with S different from 0.  The amended statement,
A = Conv + Diff + (-S)*I with Conv and Diff as the claim describes them, is
proved below against spec-side matrices written independently with modular
neighbor indices. -/

noncomputable section

/-- Periodic central-difference first-derivative matrix scaled by C/(2 dx), as
the claim words it: +1 toward the right periodic neighbor, -1 toward the left
periodic neighbor, with the wraparound entries at [0, n-1] and [n-1, 0]. -/
def convClaim (n : ℕ) (C dx : ℝ) : Matrix (Fin n) (Fin n) ℝ := fun i j =>
  C / (2 * dx) *
    ((if j.val = i.val + 1 ∨ (i.val = n - 1 ∧ j.val = 0) then 1 else 0) +
      (if i.val = j.val + 1 ∨ (i.val = 0 ∧ j.val = n - 1) then -1 else 0))

/-- Periodic second-difference matrix scaled by D/dx^2, as the claim words it:
2 on the diagonal and -1 toward both periodic neighbors, wraparound included. -/
def diffClaim (n : ℕ) (D dx : ℝ) : Matrix (Fin n) (Fin n) ℝ := fun i j =>
  D / dx ^ 2 *
    ((if i = j then 2 else 0) +
      (if j.val = i.val + 1 ∨ (i.val = n - 1 ∧ j.val = 0) then -1 else 0) +
      (if i.val = j.val + 1 ∨ (i.val = 0 ∧ j.val = n - 1) then -1 else 0))

end

/-- C1 counterexample: at N_x = 2, C = 0, D = 0, S = 1, dx = 1 the assembled
operator has diagonal entry -1, while Conv + Diff + S*I has diagonal entry 1,
so A = Conv + Diff + S*I fails as stated. -/
theorem operator_assembly_counterexample :
    Afd 2 0 0 1 1 ≠
      AC 2 0 1 + AD 2 0 1 + (1 : ℝ) • (1 : Matrix (Fin 2) (Fin 2) ℝ) := by
  intro h
  have h0 := congrFun (congrFun h 0) 0
  simp [Afd, AC, AD, AS, ACpattern, ADpattern, Matrix.add_apply, Matrix.smul_apply,
    Matrix.one_apply] at h0
  exact absurd h0 (by norm_num)

/-- C1 amended: for every grid size with at least three points and all
coefficients, the assembled SpatialOperator equals the periodic
central-difference convection matrix scaled by C/(2 dx), plus the periodic
second-difference diffusion matrix scaled by D/dx^2, plus the reaction term
(-S)*I (the source negates S in the reaction matrix). -/
theorem operator_assembly_amended (n : ℕ) (C D S dx : ℝ) (hn : 3 ≤ n) :
    Afd n C D S dx =
      convClaim n C dx + diffClaim n D dx +
        (-S) • (1 : Matrix (Fin n) (Fin n) ℝ) := by
  ext i j
  have hi := i.isLt
  have hj := j.isLt
  simp only [Afd, AC, AD, AS, convClaim, diffClaim, Matrix.add_apply,
    Matrix.smul_apply, Matrix.one_apply, ACpattern, ADpattern, smul_eq_mul,
    Fin.ext_iff]
  split_ifs <;> first | ring1 | (exfalso; omega)

/-- Witness for the amended C1 at n = 4, C = 1, D = 1, S = 1, dx = 1. -/
theorem operator_assembly_amended_witness :
    Afd 4 1 1 1 1 =
      convClaim 4 1 1 + diffClaim 4 1 1 +
        (-(1 : ℝ)) • (1 : Matrix (Fin 4) (Fin 4) ℝ) :=
  operator_assembly_amended 4 1 1 1 1 (by norm_num)

/-! ## Claim C4: the evolution operator is exp of the split generator -/

/-- C4: for every retained frequency k and every time t, the operator passed
to the EvolutionOracle is U = exp(G*t) with generator G = i*k*H1 - H2, where
H1 and H2 are the Hermitian and anti-Hermitian parts of the complexified
spatial operator. -/
theorem evolution_operator_generator (n : ℕ) (C D S dx k t : ℝ) :
    Ufd n C D S dx k t =
      NormedSpace.exp ℂ ((t : ℂ) •
        ((Complex.I * k) •
            (((1 : ℂ) / 2) • (AfdC n C D S dx + (AfdC n C D S dx)ᴴ)) -
          ((1 : ℂ) / 2) • (AfdC n C D S dx - (AfdC n C D S dx)ᴴ))) := by
  unfold Ufd
  congr 1
  congr 1
  ext i j
  simp only [Mgen, H1, H2, AfdC, Matrix.map_apply, Matrix.sub_apply,
    Matrix.add_apply, Matrix.smul_apply, Matrix.conjTranspose_apply,
    star_trivial, smul_eq_mul, Complex.star_def, Complex.conj_ofReal]
  push_cast
  ring

/-! ## Solution recombination (SolutionRecombiner) -/

noncomputable section

/-- Fixed evaluation offset of the reconstruction loops: idx = 0 in both
scripts. -/
def idxRef : ℕ := 0

/-- Per-frequency recombination phase,
np.exp(1.j*np.pi*k*wy/2*2*(ny/2+idx)/ny). -/
def phaseFactor (ny : ℕ) (wy k : ℝ) (idx : ℕ) : ℂ :=
  Complex.exp (Complex.I * (Real.pi : ℂ) * (k : ℂ) * (wy : ℂ) / 2 * 2 *
    ((ny : ℂ) / 2 + (idx : ℂ)) / (ny : ℂ))

/-- Weighted recombination sum,
soln[p] = sum over i of states[i][p] * np.abs(fv[i]) * phase(kv[i]). -/
def solnSum (ny : ℕ) (wy : ℝ) (states : ℕ → ℕ → ℂ) (fv : ℕ → ℂ) (kv : ℕ → ℝ)
    (idx : ℕ) (p : ℕ) : ℂ :=
  ∑ i ∈ range ny,
    states i p * ((Complex.abs (fv i) : ℝ) : ℂ) * phaseFactor ny wy (kv i) idx

/-- Reconstructed solution: the recombination sum rescaled by the stored
initial-field norm and by exp of the auxiliary axis value at index
int(ny/2+idx), with the real part taken at the end
(soln *= u_init_norm; soln *= np.exp(y[int(ny/2+idx)]); results = soln.real). -/
def reconstructed (ny : ℕ) (wy : ℝ) (states : ℕ → ℕ → ℂ) (fv : ℕ → ℂ)
    (kv : ℕ → ℝ) (unorm : ℝ) (yv : ℕ → ℝ) (p : ℕ) : ℝ :=
  (solnSum ny wy states fv kv idxRef p * (unorm : ℂ) *
    ((Real.exp (yv (ny / 2 + idxRef)) : ℝ) : ℂ)).re

end

/-- Real part of a complex number rescaled by two real factors. -/
theorem re_mul_ofReal_mul_ofReal (z : ℂ) (a b : ℝ) :
    (z * (a : ℂ) * (b : ℂ)).re = z.re * a * b := by
  simp [Complex.mul_re, Complex.ofReal_re, Complex.ofReal_im]

/-! ## Claim C3: the reconstruction formula of the spec -/

/-- C3: for every list of EvolvedStates aligned with the FrequencyComponents,
the ReconstructedSolution equals the real part of the weighted phase-shifted
sum, multiplied by InitialFieldNorm and by exp of the AuxiliaryAxis value at
index ny/2 + idx, with the fixed evaluation offset idx = 0. -/
theorem reconstruction_formula (ny : ℕ) (wy : ℝ) (states : ℕ → ℕ → ℂ)
    (fv : ℕ → ℂ) (kv : ℕ → ℝ) (unorm : ℝ) (yv : ℕ → ℝ) (p : ℕ) :
    reconstructed ny wy states fv kv unorm yv p =
      (∑ i ∈ range ny,
          states i p * ((Complex.abs (fv i) : ℝ) : ℂ) *
            Complex.exp (Complex.I * (Real.pi : ℂ) * (kv i : ℂ) * ((wy : ℂ) / 2) *
              2 * ((ny : ℂ) / 2 + (idxRef : ℂ)) / (ny : ℂ))).re *
        unorm * Real.exp (yv (ny / 2 + idxRef)) := by
  unfold reconstructed solnSum phaseFactor
  have hexp : ∀ i : ℕ,
      Complex.I * (Real.pi : ℂ) * (kv i : ℂ) * (wy : ℂ) / 2 * 2 *
          ((ny : ℂ) / 2 + (idxRef : ℂ)) / (ny : ℂ) =
        Complex.I * (Real.pi : ℂ) * (kv i : ℂ) * ((wy : ℂ) / 2) * 2 *
          ((ny : ℂ) / 2 + (idxRef : ℂ)) / (ny : ℂ) := fun i => by ring
  simp_rw [hexp]
  exact re_mul_ofReal_mul_ofReal _ _ _

/-! ## Spectral variant operator (1DPeriodicSpectralNoisyQuantumSingle.py) -/

noncomputable section

/-- Spatial wavenumber grid of the spectral script,
kx = fft.fftfreq(nx)*nx*2*np.pi/L. -/
def kxGrid (n : ℕ) (L : ℝ) (j : ℕ) : ℝ := fftfreq n j * n * 2 * Real.pi / L

/-- Diagonal operator of the spectral script,
H = np.diag(C*kx + D*k*np.square(kx) - S*k), parameterized by the outer
frequency k. -/
def Hdiag (n : ℕ) (L C D S k : ℝ) : Matrix (Fin n) (Fin n) ℝ :=
  Matrix.diagonal fun j =>
    C * kxGrid n L j.val + D * k * kxGrid n L j.val ^ 2 - S * k

/-- Spectral evolution operator, U = linalg.expm(1.j*H*time), applied between
the forward QFT and the inverse QFT. -/
def Uspec (n : ℕ) (L C D S k t : ℝ) : Matrix (Fin n) (Fin n) ℂ :=
  NormedSpace.exp ℂ ((Complex.I * (t : ℂ)) • (Hdiag n L C D S k).map Complex.ofReal)

end

/-! ## Claim C5: the spectral operator is diagonal and a pure phase rotation -/

/-- C5: in the spectral variant, the operator applied between the transforms is
diagonal with entry C*kx + D*k*kx^2 - S*k at each spatial wavenumber
kx = bin * (2*pi/L), and it is exponentiated as the diagonal phase rotation
exp(i*H*t), entrywise exp of the diagonal entries. -/
theorem spectral_diagonal_operator (n : ℕ) (L C D S k t : ℝ) (j j2 : Fin n) :
    Hdiag n L C D S k j j2 =
      (if j = j2 then
        C * ((fftBin n j.val : ℝ) * (2 * Real.pi / L)) +
          D * k * ((fftBin n j.val : ℝ) * (2 * Real.pi / L)) ^ 2 - S * k
      else 0) ∧
    Uspec n L C D S k t =
      Matrix.diagonal fun j3 => Complex.exp (Complex.I * (t : ℂ) *
        ((C * kxGrid n L j3.val + D * k * kxGrid n L j3.val ^ 2 - S * k : ℝ) : ℂ)) := by
  constructor
  · have hn : (n : ℝ) ≠ 0 := Nat.cast_ne_zero.mpr j.pos.ne'
    rw [Hdiag, Matrix.diagonal_apply]
    have hkx : kxGrid n L j.val = (fftBin n j.val : ℝ) * (2 * Real.pi / L) := by
      unfold kxGrid fftfreq
      field_simp
      ring
    rw [hkx]
  · unfold Uspec Hdiag
    rw [Matrix.diagonal_map Complex.ofReal_zero,
      show ((Complex.I * (t : ℂ)) • Matrix.diagonal fun j3 : Fin n =>
          Complex.ofReal (C * kxGrid n L j3.val + D * k * kxGrid n L j3.val ^ 2 - S * k)) =
        Matrix.diagonal ((Complex.I * (t : ℂ)) • fun j3 : Fin n =>
          Complex.ofReal (C * kxGrid n L j3.val + D * k * kxGrid n L j3.val ^ 2 - S * k))
        from (Matrix.diagonal_smul _ _).symm,
      Matrix.exp_diagonal]
    have hfun : NormedSpace.exp ℂ ((Complex.I * (t : ℂ)) • fun j3 : Fin n =>
          Complex.ofReal (C * kxGrid n L j3.val + D * k * kxGrid n L j3.val ^ 2 - S * k)) =
        fun j3 : Fin n => Complex.exp (Complex.I * (t : ℂ) *
          ((C * kxGrid n L j3.val + D * k * kxGrid n L j3.val ^ 2 - S * k : ℝ) : ℂ)) := by
      funext j3
      rw [Pi.coe_exp]
      simp only [Pi.smul_apply, smul_eq_mul]
      rw [← Complex.exp_eq_exp_ℂ]
    rw [hfun]

/-! ## State preparation (PerFrequencyEvolver) -/

noncomputable section

/-- State prepared per frequency component,
circ_init.initialize(u0*fv[i]/np.abs(fv[i]), qr): the normalized field scaled
entrywise by the phase factor fv[i]/np.abs(fv[i]). -/
def preparedState (u0 : ℕ → ℝ) (c : ℂ) (p : ℕ) : ℂ :=
  (u0 p : ℂ) * c / ((Complex.abs c : ℝ) : ℂ)

end

/-! ## Claim C10: the unguarded phase factor c/abs c -/

/-- C10: the state preparation computes the phase factor as c/abs(c) with no
guard against abs(c) = 0.  Under the precondition that the coefficient c is
nonzero, the factor has unit modulus and the prepared state u0*c/abs(c) has
unit Euclidean norm (u0 itself being normalized); when c is exactly zero the
divisor abs(c) is zero and the prepared state degenerates to the zero
vector. -/
theorem phase_factor_division (n : ℕ) (u0 : ℕ → ℝ) (c : ℂ)
    (hu : ∑ p ∈ range n, u0 p ^ 2 = 1) :
    (c ≠ 0 → Complex.abs (c / ((Complex.abs c : ℝ) : ℂ)) = 1 ∧
      Real.sqrt (∑ p ∈ range n, Complex.abs (preparedState u0 c p) ^ 2) = 1) ∧
    (c = 0 → Complex.abs c = 0 ∧ ∀ p, preparedState u0 c p = 0) := by
  constructor
  · intro hc
    have habs : Complex.abs c ≠ 0 := (Complex.abs.pos hc).ne'
    have hfac : Complex.abs (c / ((Complex.abs c : ℝ) : ℂ)) = 1 := by
      rw [map_div₀, Complex.abs_ofReal, abs_of_nonneg (Complex.abs.nonneg c)]
      exact div_self habs
    refine ⟨hfac, ?_⟩
    have hterm : ∀ p, Complex.abs (preparedState u0 c p) ^ 2 = u0 p ^ 2 := by
      intro p
      unfold preparedState
      rw [mul_div_assoc, map_mul, hfac, mul_one, Complex.abs_ofReal, sq_abs]
    simp_rw [hterm]
    rw [hu, Real.sqrt_one]
  · intro hc
    subst hc
    exact ⟨map_zero _, fun p => by unfold preparedState; simp⟩

/-- Witness for C10 at the one-point unit field and coefficient I. -/
theorem phase_factor_division_witness :
    Complex.abs (Complex.I / ((Complex.abs Complex.I : ℝ) : ℂ)) = 1 ∧
    Real.sqrt (∑ p ∈ range 1,
      Complex.abs (preparedState (fun _ => 1) Complex.I p) ^ 2) = 1 :=
  (phase_factor_division 1 (fun _ => 1) Complex.I (by simp)).1 Complex.I_ne_zero

/-! ## Discrete Fourier inversion at a single point

General lemmas used for claim C9: the forward-normalized transform composed
with the inverse basis reproduces the original sequence at any index. -/

noncomputable section

/-- Inverse transform basis value exp(2*pi*I*m*j/n). -/
def dftBasis (n : ℕ) (m j : ℕ) : ℂ :=
  Complex.exp (2 * Real.pi * Complex.I * m * j / n)

end

/-- A nontrivial n-th root of unity, raised to all powers below n, sums to
zero. -/
theorem root_pow_sum_eq_zero (n : ℕ) (hn : 0 < n) (d : ℤ) (hd : d ≠ 0)
    (hdlt : d.natAbs < n) :
    ∑ m ∈ range n, Complex.exp (2 * Real.pi * Complex.I * d / n) ^ m = 0 := by
  have hnC : (n : ℂ) ≠ 0 := Nat.cast_ne_zero.mpr hn.ne'
  have h2πI : (2 * (Real.pi : ℂ) * Complex.I) ≠ 0 := by
    simp [Real.pi_ne_zero, Complex.I_ne_zero]
  have hz1 : Complex.exp (2 * Real.pi * Complex.I * d / n) ≠ 1 := by
    intro h
    rw [Complex.exp_eq_one_iff] at h
    obtain ⟨k, hk⟩ := h
    have hk2 : 2 * (Real.pi : ℂ) * Complex.I * d = k * (2 * Real.pi * Complex.I) * n := by
      have := congrArg (· * (n : ℂ)) hk
      simpa [div_mul_cancel₀ _ hnC] using this
    have hdc : (d : ℂ) = (k * n : ℤ) := by
      apply mul_left_cancel₀ h2πI
      push_cast
      linear_combination hk2
    have hdi : d = k * n := by exact_mod_cast hdc
    have habs : d.natAbs = k.natAbs * n := by
      rw [hdi, Int.natAbs_mul, Int.natAbs_ofNat]
    rcases Nat.eq_zero_or_pos k.natAbs with h0 | h1
    · exact hd (by simpa [Int.natAbs_eq_zero.mp h0] using hdi)
    · have := Nat.mul_le_mul_right n h1
      omega
  rw [geom_sum_eq hz1]
  have hpow : Complex.exp (2 * Real.pi * Complex.I * d / n) ^ n = 1 := by
    rw [← Complex.exp_nat_mul]
    rw [show (n : ℂ) * (2 * Real.pi * Complex.I * d / n) =
      d * (2 * Real.pi * Complex.I) from by field_simp; ring]
    exact Complex.exp_int_mul_two_pi_mul_I d
  rw [hpow, sub_self, zero_div]

/-- Orthogonality of the inverse basis: summing the m-th powers of the
difference phase over a full period detects index equality. -/
theorem dft_basis_orthogonality (n j j0 : ℕ) (hj : j < n) (hj0 : j0 < n) :
    ∑ m ∈ range n,
        Complex.exp (2 * Real.pi * Complex.I * ((j0 : ℂ) - (j : ℂ)) / n) ^ m =
      if j = j0 then (n : ℂ) else 0 := by
  have hn : 0 < n := lt_of_le_of_lt (Nat.zero_le j) hj
  by_cases h : j = j0
  · subst h
    rw [if_pos rfl,
      show 2 * (Real.pi : ℂ) * Complex.I * ((j : ℂ) - (j : ℂ)) / n = 0 from by ring,
      Complex.exp_zero]
    simp
  · rw [if_neg h,
      show ((j0 : ℂ) - (j : ℂ)) = (((j0 : ℤ) - (j : ℤ) : ℤ) : ℂ) from by push_cast; ring]
    refine root_pow_sum_eq_zero n hn ((j0 : ℤ) - (j : ℤ)) ?_ (by omega)
    exact sub_ne_zero.mpr fun hh => h (by exact_mod_cast hh.symm)

/-- Pointwise inversion of the forward-normalized transform: the weighted sum
of coefficients against the inverse basis recovers the sequence value. -/
theorem dft_inversion_at (n : ℕ) (v : ℕ → ℝ) (j0 : ℕ) (hj0 : j0 < n) :
    ∑ m ∈ range n, dftForward n v m * dftBasis n m j0 = ((v j0 : ℝ) : ℂ) := by
  have hn : 0 < n := lt_of_le_of_lt (Nat.zero_le j0) hj0
  have hnC : (n : ℂ) ≠ 0 := Nat.cast_ne_zero.mpr hn.ne'
  unfold dftForward dftBasis
  have hstep : ∀ m : ℕ,
      ((1 / (n : ℂ)) * ∑ j ∈ range n, (v j : ℂ) *
          Complex.exp (-2 * Real.pi * Complex.I * m * j / n)) *
        Complex.exp (2 * Real.pi * Complex.I * m * j0 / n) =
      (1 / (n : ℂ)) * ∑ j ∈ range n, (v j : ℂ) *
          Complex.exp (2 * Real.pi * Complex.I * ((j0 : ℂ) - (j : ℂ)) / n) ^ m := by
    intro m
    rw [mul_assoc, Finset.sum_mul]
    congr 1
    refine Finset.sum_congr rfl fun j _ => ?_
    rw [mul_assoc]
    congr 1
    rw [← Complex.exp_add, ← Complex.exp_nat_mul]
    congr 1
    ring
  simp_rw [hstep]
  rw [← Finset.mul_sum, Finset.sum_comm]
  have hinner : ∀ j ∈ range n,
      ∑ m ∈ range n, (v j : ℂ) *
          Complex.exp (2 * Real.pi * Complex.I * ((j0 : ℂ) - (j : ℂ)) / n) ^ m =
        (v j : ℂ) * (if j = j0 then (n : ℂ) else 0) := fun j hj => by
    rw [← Finset.mul_sum, dft_basis_orthogonality n j j0 (mem_range.mp hj) hj0]
  rw [Finset.sum_congr rfl hinner]
  simp_rw [mul_ite, mul_zero]
  rw [Finset.sum_ite_eq' (range n) j0 fun j => (v j : ℂ) * n,
    if_pos (mem_range.mpr hj0)]
  field_simp

/-! ## Concrete configuration of 1DPeriodicDiscretizedQuantumTime.py

C = 4, D = 1, S = -0.2, wx = 2 (so L = 2*pi), nq = 8 (nx = 256), nqy = 12
(ny = 4096), wy = 8, shift = 0, alpha = 10, bzone = 0.  These instances are
used to settle claim C9 at the first time sample t = 0. -/

noncomputable section

/-- Physical domain length, L = wx*pi with wx = 2. -/
def Lref : ℝ := 2 * Real.pi

/-- Spatial grid of the reference run (256 points). -/
def xRef (p : ℕ) : ℝ := grid Lref 256 p

/-- Initial field, u_init = sin(1*x) + sin(3*x) + cos(2*x). -/
def uInitRef (p : ℕ) : ℝ :=
  Real.sin (1 * xRef p) + Real.sin (3 * xRef p) + Real.cos (2 * xRef p)

/-- Stored initial-field norm. -/
def uNormRef : ℝ := fieldNorm 256 uInitRef

/-- Normalized initial state, u0 = u_init / u_init_norm. -/
def u0Ref (p : ℕ) : ℝ := uInitRef p / uNormRef

/-- Auxiliary axis of the reference run (4096 points, wy = 8, shift = 0). -/
def yRef (i : ℕ) : ℝ := auxAxis 4096 8 0 i

/-- Auxiliary profile of the reference run (alpha = 10, bzone = 0). -/
def vRef (i : ℕ) : ℝ := vInit 4096 8 0 10 0 i

/-- Forward-normalized transform coefficients fv of the reference run. -/
def fvRef (m : ℕ) : ℂ := dftForward 4096 vRef m

/-- Wavenumbers kv of the reference run. -/
def kvRef (i : ℕ) : ℝ := kvGrid 4096 8 i

/-- Per-frequency state at zero evolution time: with U = exp(M*0) = 1 the
noiseless oracle returns the prepared state u0*fv[i]/np.abs(fv[i]). -/
def statesZeroRef (i p : ℕ) : ℂ :=
  (u0Ref p : ℂ) * fvRef i / ((Complex.abs (fvRef i) : ℝ) : ℂ)

/-- Reconstructed solution at t = 0 built from the zero-time states. -/
def reconZeroRef (p : ℕ) : ℝ :=
  reconstructed 4096 8 statesZeroRef fvRef kvRef uNormRef yRef p

end

/-- The recombination phase at the reference parameters equals the inverse
transform basis at the auxiliary midpoint index 2048. -/
theorem phase_eq_basis (i : ℕ) :
    phaseFactor 4096 8 (kvRef i) idxRef = dftBasis 4096 i 2048 := by
  unfold phaseFactor kvRef kvGrid fftfreq dftBasis idxRef
  by_cases hb : 2 * i < 4096
  · rw [fftBin, if_pos hb]
    congr 1
    push_cast
    ring
  · rw [fftBin, if_neg hb]
    have key : ∀ z w : ℂ, z = w + ((-2048 : ℤ) : ℂ) * (2 * Real.pi * Complex.I) →
        Complex.exp z = Complex.exp w := by
      intro z w h
      rw [h, Complex.exp_add, Complex.exp_int_mul_two_pi_mul_I, mul_one]
    apply key
    push_cast
    ring

/-- The auxiliary axis of the reference run sits at zero at index 2048. -/
theorem yRef_mid : yRef 2048 = 0 := by
  unfold yRef auxAxis
  push_cast
  ring

/-- The profile value at the axis origin is one. -/
theorem profile_at_zero : profileVal 8 0 10 0 0 = 1 := by
  have hπ := Real.pi_pos
  unfold profileVal
  rw [if_neg (by push_neg; constructor <;> nlinarith), if_neg (by norm_num)]
  simp

/-- The auxiliary profile of the reference run equals one at the midpoint. -/
theorem vRef_mid : vRef 2048 = 1 := by
  unfold vRef vInit
  rw [show auxAxis 4096 8 0 2048 = 0 from yRef_mid]
  exact profile_at_zero

/-- The spatial grid of the reference run sits at zero at index 128. -/
theorem xRef_mid : xRef 128 = 0 := by
  unfold xRef grid Lref
  push_cast
  ring

/-- The initial field equals one at grid index 128. -/
theorem uInitRef_mid : uInitRef 128 = 1 := by
  unfold uInitRef
  rw [xRef_mid]
  simp

/-- The stored initial-field norm is positive. -/
theorem uNormRef_pos : 0 < uNormRef := by
  unfold uNormRef fieldNorm
  apply Real.sqrt_pos.mpr
  refine Finset.sum_pos' (fun q _ => sq_nonneg _)
    ⟨128, mem_range.mpr (by norm_num), ?_⟩
  rw [uInitRef_mid]
  norm_num

/-- Dividing by the modulus and multiplying it back is the identity, also at
zero. -/
theorem div_abs_mul_abs (z : ℂ) :
    z / ((Complex.abs z : ℝ) : ℂ) * ((Complex.abs z : ℝ) : ℂ) = z := by
  by_cases hz : z = 0
  · simp [hz]
  · exact div_mul_cancel₀ z (Complex.ofReal_ne_zero.mpr (Complex.abs.pos hz).ne')

/-- The weighted recombination sum of the transform coefficients collapses to
the profile value at the midpoint. -/
theorem recon_sum_collapse :
    ∑ i ∈ range 4096, fvRef i * phaseFactor 4096 8 (kvRef i) idxRef =
      ((vRef 2048 : ℝ) : ℂ) :=
  calc ∑ i ∈ range 4096, fvRef i * phaseFactor 4096 8 (kvRef i) idxRef
      = ∑ i ∈ range 4096, dftForward 4096 vRef i * dftBasis 4096 i 2048 :=
        Finset.sum_congr rfl fun i _ => by rw [phase_eq_basis]; rfl
    _ = ((vRef 2048 : ℝ) : ℂ) := dft_inversion_at 4096 vRef 2048 (by norm_num)

/-! ## Claim C9: zero-noise, zero-time reconstruction returns the field -/

/-- C9: with a noiseless oracle and evolution time t = 0, every evolution
operator exp(M*0) is the identity, and the ReconstructedSolution built from
the prepared states u0*fv[i]/abs(fv[i]) equals the InitialField exactly: the
weighted recombination collapses through the forward-normalized transform
round trip at the auxiliary-axis midpoint, where the profile value and the
exp(AuxiliaryAxis) factor are both one. -/
theorem zero_time_reconstruction :
    (∀ k : ℝ, Ufd 256 4 1 (-0.2) (Lref / 256) k 0 = 1) ∧
    ∀ p : ℕ, reconZeroRef p = uInitRef p := by
  constructor
  · intro k
    unfold Ufd
    rw [Complex.ofReal_zero, zero_smul, NormedSpace.exp_zero]
  · intro p
    unfold reconZeroRef reconstructed
    have hidx : 4096 / 2 + idxRef = 2048 := rfl
    rw [hidx]
    have hsoln : solnSum 4096 8 statesZeroRef fvRef kvRef idxRef p =
        (u0Ref p : ℂ) * ((vRef 2048 : ℝ) : ℂ) := by
      unfold solnSum statesZeroRef
      have hterm : ∀ i ∈ range 4096,
          (u0Ref p : ℂ) * fvRef i / ((Complex.abs (fvRef i) : ℝ) : ℂ) *
              ((Complex.abs (fvRef i) : ℝ) : ℂ) *
              phaseFactor 4096 8 (kvRef i) idxRef =
            (u0Ref p : ℂ) * (fvRef i * phaseFactor 4096 8 (kvRef i) idxRef) := by
        intro i _
        rw [mul_div_assoc,
          mul_assoc ((u0Ref p : ℂ)) (fvRef i / ((Complex.abs (fvRef i) : ℝ) : ℂ))
            ((Complex.abs (fvRef i) : ℝ) : ℂ),
          div_abs_mul_abs, mul_assoc]
      rw [Finset.sum_congr rfl hterm, ← Finset.mul_sum, recon_sum_collapse]
    rw [hsoln, vRef_mid, yRef_mid, Real.exp_zero]
    simp only [Complex.ofReal_one, mul_one]
    rw [← Complex.ofReal_mul, Complex.ofReal_re]
    unfold u0Ref
    exact div_mul_cancel₀ _ uNormRef_pos.ne'

end QCRF
